import Mathlib

/-!
Verification of the open-addressing hash table in src/Q3/CWK2Q3.c.

Shallow embedding notes:
- A key is the list of character codes of a C string ("names, i.e. char arrays").
  C strings are NUL-terminated, so a key never contains the code 0.
- A slot of the table (an entry of the global `char** hash_map`) is either a NULL
  pointer, the global tombstone marker (pointer identity with the literal
  "tombstone"), or an occupied entry holding a caller string.  The C code checks
  tombstones by POINTER identity but compares keys by `strcmp`, i.e. by TEXT; a
  tombstone slot therefore has the text "tombstone" for `strcmp` purposes while
  only the marker itself compares equal to `tombstone` with `==`.  The model keeps
  this distinction: `Slot.tomb` is the marker, `Slot.occ k` a stored key, and
  `Slot.text` is what `strcmp` sees.
- `current_size` is always the allocated length of `hash_map` (it is set only
  together with the `calloc` in `resize_map`), so the model stores the slot list
  and uses its length as `current_size`.  `number_of_items` is a C `int` and can
  go negative through certain operation sequences, so it is modelled as `Int`.
- `int` arithmetic in `hash_function` wraps at 32 bits (the code comments accept
  this); `wrap32` reduces into [-2^31, 2^31) and `%` on C ints is `Int.tmod`.
- The load-factor tests compare `(double)items / (double)n > 0.7`.  For every
  pair of C ints this comparison is exact: the rational `items/n` differs from
  7/10 either by 0 (then both sides round to the same double and the strict
  comparison is false, as in the rationals) or by at least 1/(10*n) > 2^-35,
  which dwarfs the 2^-53 relative rounding error.  Hence the test is modelled
  exactly by the integer comparison `10 * items > 7 * n`.
- The probe loops of `index_of` and `add_to_map_without_resizing` have no
  termination guard in C; they are modelled with fuel, where `none` means that
  the loop does not reach a terminating slot (the fuel `size + 1` is enough to
  decide this: probe positions repeat with period dividing `size`).
- Reading `hash_map[i]` for `i` outside [0, size), and calling `hash_function`
  (thus `search_map`, `remove_from_map`, `add_to_map_without_resizing`) while
  `current_size == 0`, are undefined behaviour in C (out-of-bounds access,
  `sum % 0`).  The model returns `Slot.null` resp. `none` there; theorems about
  defined behaviour carry hypotheses keeping all accesses in range.
-/

namespace CWK2Q3

/-- Character codes of a C string: a NUL-free byte list. -/
abbrev Key := List Nat

/-- The codes of the global marker string "tombstone". -/
def tombLit : Key := [116, 111, 109, 98, 115, 116, 111, 110, 101]

/-- One entry of `hash_map`: NULL, the tombstone marker, or a stored name. -/
inductive Slot : Type
  | null : Slot
  | tomb : Slot
  | occ : Key → Slot
deriving DecidableEq

/-- The text `strcmp` sees at a slot: nothing for NULL, the marker text
"tombstone" for the tombstone pointer, and the stored name otherwise. -/
def Slot.text : Slot → Option Key
  | Slot.null => none
  | Slot.tomb => some tombLit
  | Slot.occ k => some k

/-- The global state: the slot array `hash_map` (whose length is
`current_size`) and `number_of_items`. -/
structure HMap where
  slots : List Slot
  items : Int
deriving DecidableEq

/-- The global `current_size`: the allocated length of `hash_map`. -/
def HMap.size (m : HMap) : Nat := m.slots.length

/-- Reading `hash_map[j]` at an in-range natural index; `Slot.null` out of range
(out-of-range reads are undefined behaviour in the C source). -/
def slotN (m : HMap) (j : Nat) : Slot := m.slots.getD j Slot.null

/-- Reading `hash_map[i]` at a C int index. -/
def slotAt (m : HMap) (i : Int) : Slot :=
  if i < 0 then Slot.null else slotN m i.toNat

def isOcc : Slot → Bool
  | Slot.occ _ => true
  | _ => false

/-- The number of Occupied slots. -/
def occCount (m : HMap) : Nat := m.slots.countP isOcc

/-- The key is stored (occupies a slot) in the table. -/
def OccIn (m : HMap) (k : Key) : Prop := Slot.occ k ∈ m.slots

/-- The 32-bit two's-complement wrap: the representative of z mod 2^32 in
[-2^31, 2^31). -/
def wrap32 (z : Int) : Int := (z + 2 ^ 31) % 2 ^ 32 - 2 ^ 31

/-- The running `sum += ascii_value` of `hash_function`, with `int` overflow
wrapping at each step. -/
def csum (k : Key) : Int := k.foldl (fun (s : Int) (c : Nat) => wrap32 (s + (c : Int))) 0

/-- The function `hash_function`: the wrapped character-code sum, `%` (C truncated
remainder) `current_size`.  The parameter n is the global `current_size`. -/
def hash_function (n : Nat) (k : Key) : Int := Int.tmod (csum k) (n : Int)

/-- The function `next_index`: increment, wrapping to 0 at `current_size`. -/
def next_index (n : Nat) (i : Int) : Int := if (n : Int) ≤ i + 1 then 0 else i + 1

/-- The probe loop of `index_of`, with fuel; `none` models a loop that never
reaches a NULL slot or a match. -/
def indexOfFrom (m : HMap) (name : Key) : Nat → Int → Option Int
  | 0, _ => none
  | fuel + 1, i =>
    if slotAt m i = Slot.null then some (-1)
    else if (slotAt m i).text = some name then some i
    else indexOfFrom m name fuel (next_index m.size i)

/-- The function `index_of`: probe from the hash of the name. Calling it with
`current_size == 0` divides by zero in C; the model returns `none`. -/
def index_of (m : HMap) (name : Key) : Option Int :=
  if m.size = 0 then none
  else indexOfFrom m name (m.size + 1) (hash_function m.size name)

/-- The function `search_map`: 0/1 from `index_of` = -1 or not. -/
def search_map (m : HMap) (name : Key) : Option Bool :=
  (index_of m name).map (fun i => if i = -1 then false else true)

/-- The function `remove_from_map`: find, overwrite with the tombstone marker, decrement
`number_of_items`; returns the 0/1 result and the new state. -/
def remove_from_map (m : HMap) (name : Key) : Option (Bool × HMap) :=
  match index_of m name with
  | none => none
  | some i =>
    if i = -1 then some (false, m)
    else some (true, { slots := m.slots.set i.toNat Slot.tomb, items := m.items - 1 })

/-- The probe loop of `add_to_map_without_resizing`: walk to the first NULL,
rejecting on a `strcmp` match, remembering the first tombstone index in `ft`
(-1 when none yet), and finally placing the name at the remembered tombstone
index if any, else at the NULL. -/
def addLoop (m : HMap) (name : Key) : Nat → Int → Int → Option HMap
  | 0, _, _ => none
  | fuel + 1, i, ft =>
    if slotAt m i = Slot.null then
      some { slots := m.slots.set (if ft = -1 then i else ft).toNat (Slot.occ name),
             items := m.items + 1 }
    else if (slotAt m i).text = some name then some m
    else addLoop m name fuel (next_index m.size i)
           (if ft = -1 ∧ slotAt m i = Slot.tomb then i else ft)

/-- The function `add_to_map_without_resizing`.  With `current_size == 0` the C code hashes
with `% 0` and dereferences a NULL `hash_map`: undefined, modelled as `none`. -/
def add_to_map_without_resizing (m : HMap) (name : Key) : Option HMap :=
  if m.size = 0 then none
  else addLoop m name (m.size + 1) (hash_function m.size name) (-1)

/-- One step of the copy loop in `resize_map`: a non-NULL, non-tombstone
(pointer identity) entry of the old array is re-added with
`add_to_map_without_resizing`; NULL and tombstone entries are skipped. -/
def reAdd (acc : Option HMap) (s : Slot) : Option HMap :=
  acc.bind (fun mm =>
    match s with
    | Slot.occ k => add_to_map_without_resizing mm k
    | _ => some mm)

/-- The function `resize_map`: reject if `new_size < 1` or the new load factor would exceed
0.7; otherwise re-add every non-NULL non-tombstone entry, in slot order, to a
fresh NULL-initialised array of the new size, with `number_of_items` reset to 0
first.  (The `calloc`-failure `exit(1)` path is not modelled: allocation is
assumed to succeed, as the spec treats its failure as fatal.) -/
def resize_map (m : HMap) (new_size : Int) : Option HMap :=
  if new_size < 1 ∨ 10 * m.items > 7 * new_size then some m
  else
    m.slots.foldl reAdd
      (some { slots := List.replicate new_size.toNat Slot.null, items := 0 })

/-- The function `add_to_map`: lazily initialise to capacity 10, insert without resizing,
then double the capacity if the load factor now exceeds 0.7. -/
def add_to_map (m : HMap) (name : Key) : Option HMap :=
  (if m.size = 0 then resize_map m 10 else some m).bind fun m1 =>
    (add_to_map_without_resizing m1 name).bind fun m2 =>
      if 10 * m2.items > 7 * (m2.size : Int) then resize_map m2 (2 * (m2.size : Int))
      else some m2

/-- The public mutating operations. -/
inductive Op : Type
  | ins : Key → Op
  | del : Key → Op
  | rsz : Int → Op
deriving DecidableEq

/-- The initial global state: `hash_map = NULL` (length 0), both counters 0. -/
def initMap : HMap := { slots := [], items := 0 }

def step (m : HMap) : Op → Option HMap
  | Op.ins k => add_to_map m k
  | Op.del k => (remove_from_map m k).map Prod.snd
  | Op.rsz z => resize_map m z

def runOps : HMap → List Op → Option HMap
  | m, [] => some m
  | m, op :: rest => (step m op).bind fun m2 => runOps m2 rest

/-- The plain (unwrapped) character-code sum of a key. -/
def natSum (k : Key) : Nat := k.sum

/-- A key that is a faithful image of an ASCII C string whose code sum does not
overflow a 32-bit int: no NUL or high byte, total sum below 2^31.  For such
keys `hash_function` lands in [0, capacity). -/
def GoodKey (k : Key) : Prop := (∀ c ∈ k, 0 < c ∧ c < 128) ∧ natSum k < 2 ^ 31

def GoodOp : Op → Prop
  | Op.ins k => GoodKey k
  | Op.del k => GoodKey k
  | Op.rsz _ => True

def GoodOps (ops : List Op) : Prop := ∀ op ∈ ops, GoodOp op

/-- No operation of the sequence deletes the marker text "tombstone". -/
def NoTombDel (ops : List Op) : Prop := ∀ op ∈ ops, op ≠ Op.del tombLit

/-- The in-range hash index of a key with small sum. -/
def hashN (n : Nat) (k : Key) : Nat := natSum k % n

/-- Index i is reached by the linear probe walk from s strictly before any
NULL slot. -/
def RBN (m : HMap) (s i : Nat) : Prop :=
  ∃ t, (s + t) % m.size = i ∧ ∀ u < t, slotN m ((s + u) % m.size) ≠ Slot.null

/-- Every stored key is well formed and its slot is on the probe chain from
its hash, before any NULL slot. -/
def ChainOK (m : HMap) : Prop :=
  ∀ i k, slotN m i = Slot.occ k → GoodKey k ∧ RBN m (hashN m.size k) i

/-- No two Occupied slots hold equal keys. -/
def Uniq (m : HMap) : Prop :=
  ∀ i j k, slotN m i = Slot.occ k → slotN m j = Slot.occ k → i = j

/-- The counter `number_of_items` never exceeds the number of Occupied slots. -/
def ItemsLe (m : HMap) : Prop := m.items ≤ (occCount m : Int)

/-- The structural invariant maintained by every reachable state. -/
def Inv0 (m : HMap) : Prop := ChainOK m ∧ Uniq m ∧ ItemsLe m

/-- The counter `number_of_items` equals the number of Occupied slots. -/
def CountOK (m : HMap) : Prop := m.items = (occCount m : Int)

/-- The 0.7 load-factor ceiling, as the exact integer comparison. -/
def LFOK (m : HMap) : Prop := 10 * m.items ≤ 7 * (m.size : Int)

/-- No slot holds the tombstone marker. -/
def TombFree (m : HMap) : Prop := ∀ j, slotN m j ≠ Slot.tomb

/-- Modelled from the spec (section 4.5), for comparison with the code's
`search_map`: probe from the hash along the linear sequence, comparing each
OCCUPIED key for equality, returning true on a match and false at the first
Empty slot; Tombstone slots are skipped and are never a match. -/
def searchSpecFrom (m : HMap) (name : Key) : Nat → Int → Option Bool
  | 0, _ => none
  | fuel + 1, i =>
    match slotAt m i with
    | Slot.null => some false
    | Slot.tomb => searchSpecFrom m name fuel (next_index m.size i)
    | Slot.occ k =>
      if k = name then some true else searchSpecFrom m name fuel (next_index m.size i)

/-- Modelled from the spec: the whole `search` operation as section 4.5
describes it. -/
def search_spec (m : HMap) (name : Key) : Option Bool :=
  if m.size = 0 then none
  else searchSpecFrom m name (m.size + 1) (hash_function m.size name)

/-- First tombstone position on the probe walk s, s+1, ... (indices mod the
size) within t steps. -/
def firstTombIn (m : HMap) : Nat → Nat → Option Nat
  | _, 0 => none
  | s, t + 1 =>
    if slotN m (s % m.size) = Slot.tomb then some (s % m.size)
    else firstTombIn m (s + 1) t

/-- The index where `add_to_map_without_resizing` places the new name, given
the incoming first-tombstone accumulator ft, the walk start s and the number
of steps t to the terminating NULL slot. -/
def chosenIdx (m : HMap) (ft : Int) (s t : Nat) : Int :=
  if ft = -1 then
    match firstTombIn m s t with
    | some j => (j : Int)
    | none => (((s + t) % m.size : Nat) : Int)
  else ft

/-- The probe walk from s stops (NULL or strcmp match) after t steps. -/
def StopAt (m : HMap) (name : Key) (s t : Nat) : Prop :=
  slotN m ((s + t) % m.size) = Slot.null ∨ (slotN m ((s + t) % m.size)).text = some name

instance (m : HMap) (name : Key) (s t : Nat) : Decidable (StopAt m name s t) :=
  inferInstanceAs (Decidable (_ ∨ _))

instance (k : Key) : Decidable (GoodKey k) := by
  unfold GoodKey
  infer_instance

instance (op : Op) : Decidable (GoodOp op) := by
  cases op <;> unfold GoodOp <;> infer_instance

instance (ops : List Op) : Decidable (GoodOps ops) := by
  unfold GoodOps
  infer_instance

instance (ops : List Op) : Decidable (NoTombDel ops) := by
  unfold NoTombDel
  infer_instance

instance (m : HMap) (k : Key) : Decidable (OccIn m k) := by
  unfold OccIn
  infer_instance

/-! ## Concrete values used in the scenarios -/

/-- The key "Alpha". -/
def alphaK : Key := [65, 108, 112, 104, 97]

/-- The key "Bravo". -/
def bravoK : Key := [66, 114, 97, 118, 111]

/-- The key "Charlie". -/
def charlieK : Key := [67, 104, 97, 114, 108, 105, 101]

/-- The key "Delta". -/
def deltaK : Key := [68, 101, 108, 116, 97]

/-- The key "Echo". -/
def echoK : Key := [69, 99, 104, 111]

/-- The capacity-6 table of the concrete scenario after the first five
inserts: "Alpha" hashes to 0, "Charlie" probes from 0 to 1, "Bravo" hashes
to 2 and "Delta" to 4. -/
def c6Table6 : HMap :=
  { slots := [Slot.occ alphaK, Slot.occ charlieK, Slot.occ bravoK, Slot.null,
      Slot.occ deltaK, Slot.null], items := 4 }

/-- The capacity-12 table after inserting "Echo" triggers the doubling
resize (rehashed positions 0, 2, 6, 10, 11). -/
def c6Table12 : HMap :=
  { slots := [Slot.occ charlieK, Slot.null, Slot.occ bravoK, Slot.null, Slot.null,
      Slot.null, Slot.occ alphaK, Slot.null, Slot.null, Slot.null, Slot.occ deltaK,
      Slot.occ echoK], items := 5 }

/-- The capacity-12 table after deleting "Charlie": a tombstone in slot 0. -/
def c6TableDel : HMap :=
  { slots := [Slot.tomb, Slot.null, Slot.occ bravoK, Slot.null, Slot.null,
      Slot.null, Slot.occ alphaK, Slot.null, Slot.null, Slot.null, Slot.occ deltaK,
      Slot.occ echoK], items := 4 }

/-- The table produced by the first insert into an uninitialised map:
capacity 10, the key "a" (code 97) at index 97 mod 10 = 7. -/
def c1Map : HMap :=
  { slots := [Slot.null, Slot.null, Slot.null, Slot.null, Slot.null, Slot.null,
      Slot.null, Slot.occ [97], Slot.null, Slot.null], items := 1 }

/-- A reachable capacity-2 table with no NULL slot: "b" (code 98) in slot 0
and a tombstone in slot 1.  Probing it for an absent key never terminates. -/
def c8Map : HMap := { slots := [Slot.occ [98], Slot.tomb], items := 1 }

/-- A reachable table whose stored count (3) satisfies the load-factor test
only because two bogus deletes of the marker text drove the counter below
the true number of occupied slots before a manual shrink to capacity 4. -/
def c5Map : HMap :=
  { slots := [Slot.occ [100], Slot.occ [101], Slot.null, Slot.occ [99]], items := 3 }

/-- The capacity-8 table produced by re-inserting the already-present key
"d" (code 100) into `c5Map`: the duplicate is rejected but the load-factor
check then fires and doubles the capacity. -/
def c5Map2 : HMap :=
  { slots := [Slot.null, Slot.null, Slot.null, Slot.occ [99], Slot.occ [100],
      Slot.occ [101], Slot.null, Slot.null], items := 3 }

/-- The reachable capacity-2 table with a tombstone in slot 1 (where the
marker text "tombstone", sum 987, also hashes). -/
def c3Map : HMap := { slots := [Slot.null, Slot.tomb], items := 0 }

/-- An ASCII key long enough that the running int sum of `hash_function`
wraps to a negative value: 2^25 bytes of code 127. -/
def bigKey9 : Key := List.replicate (2 ^ 25) 127

/-- A second wrapping key, 2^25 bytes of code 126. -/
def bigKey10 : Key := List.replicate (2 ^ 25) 126

/-! ## Basic facts about slots and counters -/

lemma slotN_of_len_le {m : HMap} {j : Nat} (h : m.slots.length ≤ j) : slotN m j = Slot.null := by
  simp [slotN, List.getD, List.get?_eq_getElem?, List.getElem?_eq_none h]

lemma lt_size_of_slotN_ne_null {m : HMap} {j : Nat} (h : slotN m j ≠ Slot.null) :
    j < m.size := by
  by_contra hc
  exact h (slotN_of_len_le (Nat.le_of_not_lt hc))

lemma slot_text_ne_null {s : Slot} {k : Key} (h : s.text = some k) : s ≠ Slot.null := by
  cases s <;> simp_all [Slot.text]

lemma occ_text {k : Key} : (Slot.occ k).text = some k := rfl

lemma slotN_getElem {m : HMap} {j : Nat} (h : j < m.slots.length) :
    slotN m j = m.slots[j] := by
  simp [slotN, List.getD, List.get?_eq_getElem?, List.getElem?_eq_getElem h]

lemma slotN_set_self {m : HMap} {j : Nat} {x : Slot} {it : Int}
    (h : j < m.slots.length) :
    slotN { slots := m.slots.set j x, items := it } j = x := by
  simp [slotN, List.getD, List.get?_eq_getElem?, List.getElem?_set_self', h]

lemma slotN_set_ne {m : HMap} {j j' : Nat} {x : Slot} {it : Int} (h : j ≠ j') :
    slotN { slots := m.slots.set j x, items := it } j' = slotN m j' := by
  simp [slotN, List.getD, List.get?_eq_getElem?, List.getElem?_set_ne h]

lemma size_set {m : HMap} {j : Nat} {x : Slot} {it : Int} :
    HMap.size { slots := m.slots.set j x, items := it } = m.size := by
  simp [HMap.size]

lemma slotAt_coe (m : HMap) (s : Nat) : slotAt m (s : Int) = slotN m s := by
  simp [slotAt]

lemma occCount_le_size (m : HMap) : occCount m ≤ m.size := List.countP_le_length isOcc

lemma occCount_set_occ {m : HMap} {j : Nat} {k : Key} {it : Int}
    (hj : j < m.slots.length) (h : isOcc (slotN m j) = false) :
    occCount { slots := m.slots.set j (Slot.occ k), items := it } = occCount m + 1 := by
  have hg : m.slots[j] = slotN m j := (slotN_getElem hj).symm
  simp only [occCount, List.countP_set isOcc m.slots j _ hj, hg, h]
  simp [isOcc]

lemma occCount_set_tomb {m : HMap} {j : Nat} {it : Int} (hj : j < m.slots.length) :
    occCount { slots := m.slots.set j Slot.tomb, items := it } =
      occCount m - (if isOcc (slotN m j) then 1 else 0) := by
  have hg : m.slots[j] = slotN m j := (slotN_getElem hj).symm
  simp only [occCount, List.countP_set isOcc m.slots j _ hj, hg]
  simp [isOcc]

lemma occIn_iff (m : HMap) (k : Key) : OccIn m k ↔ ∃ j, slotN m j = Slot.occ k := by
  constructor
  · intro h
    obtain ⟨j, hj, he⟩ := List.getElem_of_mem h
    exact ⟨j, by rw [slotN_getElem hj, he]⟩
  · rintro ⟨j, hj⟩
    have hjl : j < m.slots.length := lt_size_of_slotN_ne_null (by simp [hj])
    rw [slotN_getElem hjl] at hj
    rw [OccIn, ← hj]
    exact List.getElem_mem hjl

/-! ## The hash function -/

lemma wrap32_eq_self {z : Int} (h1 : -(2 ^ 31) ≤ z) (h2 : z < 2 ^ 31) : wrap32 z = z := by
  have h : (z + 2 ^ 31) % 2 ^ 32 = z + 2 ^ 31 := Int.emod_eq_of_lt (by omega) (by omega)
  unfold wrap32
  omega

lemma wrap32_add_left (a b : Int) : wrap32 (wrap32 a + b) = wrap32 (a + b) := by
  unfold wrap32
  have : (a + 2 ^ 31) % 2 ^ 32 - 2 ^ 31 + b + 2 ^ 31 = (a + 2 ^ 31) % 2 ^ 32 + b := by ring
  rw [this, Int.emod_add_emod]
  ring_nf

lemma csum_nowrap_aux (k : List Nat) :
    ∀ s : Int, 0 ≤ s → s + (k.sum : Int) < 2 ^ 31 →
      k.foldl (fun (a : Int) (c : Nat) => wrap32 (a + (c : Int))) s = s + (k.sum : Int) := by
  induction k with
  | nil => intro s _ _; simp
  | cons c k ih =>
    intro s hs hlt
    rw [List.sum_cons, Nat.cast_add] at hlt
    have hc : (0 : Int) ≤ (c : Int) := Int.natCast_nonneg c
    have hks : (0 : Int) ≤ (k.sum : Int) := Int.natCast_nonneg _
    have hw : wrap32 (s + (c : Int)) = s + (c : Int) := wrap32_eq_self (by omega) (by omega)
    rw [List.foldl_cons, hw, ih (s + (c : Int)) (by omega) (by omega), List.sum_cons,
      Nat.cast_add]
    ring

lemma csum_nowrap {k : Key} (h : natSum k < 2 ^ 31) : csum k = (natSum k : Int) := by
  have hlt : ((k.sum : Nat) : Int) < 2 ^ 31 := by exact_mod_cast h
  have := csum_nowrap_aux k 0 le_rfl (by omega)
  simpa [csum, natSum] using this

lemma hash_good {n : Nat} {k : Key} (h : natSum k < 2 ^ 31) :
    hash_function n k = ((hashN n k : Nat) : Int) := by
  rw [hash_function, csum_nowrap h, hashN]
  rfl

lemma hashN_lt {n : Nat} (hn : 1 ≤ n) (k : Key) : hashN n k < n :=
  Nat.mod_lt _ hn

lemma next_index_coe {n : Nat} {s : Nat} (hs : s < n) :
    next_index n (s : Int) = (((s + 1) % n : Nat) : Int) := by
  unfold next_index
  by_cases h : s + 1 = n
  · rw [if_pos (by omega), h, Nat.mod_self]
    rfl
  · rw [if_neg (by omega), Nat.mod_eq_of_lt (by omega)]
    push_cast
    ring

/-! ## Characterisation of the probe walks -/

lemma pos_shift (n s u : Nat) : ((s + 1) % n + u) % n = (s + (u + 1)) % n := by
  rw [Nat.mod_add_mod]
  congr 1
  ring

lemma next_index_bounds {n : Nat} {i : Int} (hn : 1 ≤ n) (h0 : 0 ≤ i) (h1 : i < (n : Int)) :
    0 ≤ next_index n i ∧ next_index n i < (n : Int) := by
  unfold next_index
  split <;> omega

lemma walk_covers {n : Nat} (hn : 1 ≤ n) {s j : Nat} (hs : s < n) (hj : j < n) :
    ∃ u, u < n ∧ (s + u) % n = j := by
  refine ⟨(n + j - s) % n, Nat.mod_lt _ (by omega), ?_⟩
  have h1 : s + (n + j - s) = n + j := by omega
  rw [Nat.add_mod_mod, h1, Nat.add_mod_left, Nat.mod_eq_of_lt hj]

lemma indexOfFrom_match (m : HMap) (name : Key) :
    ∀ t fuel s : Nat, s < m.size → t < fuel →
    (∀ u, u < t → slotN m ((s + u) % m.size) ≠ Slot.null ∧
      (slotN m ((s + u) % m.size)).text ≠ some name) →
    (slotN m ((s + t) % m.size)).text = some name →
    indexOfFrom m name fuel (s : Int) = some (((s + t) % m.size : Nat) : Int) := by
  intro t
  induction t with
  | zero =>
    intro fuel s hs hf hpre hmatch
    obtain ⟨f, rfl⟩ : ∃ f, fuel = f + 1 := ⟨fuel - 1, by omega⟩
    have hpos : (s + 0) % m.size = s := by rw [Nat.add_zero, Nat.mod_eq_of_lt hs]
    rw [hpos] at hmatch ⊢
    rw [indexOfFrom, slotAt_coe, if_neg (slot_text_ne_null hmatch), if_pos hmatch]
  | succ t ih =>
    intro fuel s hs hf hpre hmatch
    obtain ⟨f, rfl⟩ : ∃ f, fuel = f + 1 := ⟨fuel - 1, by omega⟩
    have h0 := hpre 0 (by omega)
    rw [Nat.add_zero, Nat.mod_eq_of_lt hs] at h0
    rw [indexOfFrom, slotAt_coe, if_neg h0.1, if_neg h0.2, next_index_coe hs]
    have hs' : (s + 1) % m.size < m.size := Nat.mod_lt _ (by omega)
    have hres := ih f ((s + 1) % m.size) hs' (by omega)
      (fun u hu => by rw [pos_shift]; exact hpre (u + 1) (by omega))
      (by rw [pos_shift]; exact hmatch)
    rw [hres, pos_shift]

lemma indexOfFrom_null (m : HMap) (name : Key) :
    ∀ t fuel s : Nat, s < m.size → t < fuel →
    (∀ u, u < t → slotN m ((s + u) % m.size) ≠ Slot.null ∧
      (slotN m ((s + u) % m.size)).text ≠ some name) →
    slotN m ((s + t) % m.size) = Slot.null →
    indexOfFrom m name fuel (s : Int) = some (-1) := by
  intro t
  induction t with
  | zero =>
    intro fuel s hs hf hpre hnull
    obtain ⟨f, rfl⟩ : ∃ f, fuel = f + 1 := ⟨fuel - 1, by omega⟩
    rw [Nat.add_zero, Nat.mod_eq_of_lt hs] at hnull
    rw [indexOfFrom, slotAt_coe, if_pos hnull]
  | succ t ih =>
    intro fuel s hs hf hpre hnull
    obtain ⟨f, rfl⟩ : ∃ f, fuel = f + 1 := ⟨fuel - 1, by omega⟩
    have h0 := hpre 0 (by omega)
    rw [Nat.add_zero, Nat.mod_eq_of_lt hs] at h0
    rw [indexOfFrom, slotAt_coe, if_neg h0.1, if_neg h0.2, next_index_coe hs]
    have hs' : (s + 1) % m.size < m.size := Nat.mod_lt _ (by omega)
    exact ih f ((s + 1) % m.size) hs' (by omega)
      (fun u hu => by rw [pos_shift]; exact hpre (u + 1) (by omega))
      (by rw [pos_shift]; exact hnull)

lemma indexOfFrom_none_of_all (m : HMap) (name : Key) (hn : 1 ≤ m.size)
    (h : ∀ j, j < m.size → slotN m j ≠ Slot.null ∧ (slotN m j).text ≠ some name) :
    ∀ fuel (i : Int), 0 ≤ i → i < (m.size : Int) → indexOfFrom m name fuel i = none := by
  intro fuel
  induction fuel with
  | zero => intro i _ _; rfl
  | succ f ih =>
    intro i h0 h1
    have hj := h i.toNat (by omega)
    have hsl : slotAt m i = slotN m i.toNat := by
      rw [slotAt, if_neg (by omega)]
    have hb := next_index_bounds hn h0 h1
    rw [indexOfFrom, hsl, if_neg hj.1, if_neg hj.2]
    exact ih _ hb.1 hb.2

lemma addLoop_match (m : HMap) (name : Key) :
    ∀ t fuel s : Nat, ∀ ft : Int, s < m.size → t < fuel →
    (∀ u, u < t → slotN m ((s + u) % m.size) ≠ Slot.null ∧
      (slotN m ((s + u) % m.size)).text ≠ some name) →
    (slotN m ((s + t) % m.size)).text = some name →
    addLoop m name fuel (s : Int) ft = some m := by
  intro t
  induction t with
  | zero =>
    intro fuel s ft hs hf hpre hmatch
    obtain ⟨f, rfl⟩ : ∃ f, fuel = f + 1 := ⟨fuel - 1, by omega⟩
    rw [Nat.add_zero, Nat.mod_eq_of_lt hs] at hmatch
    rw [addLoop, slotAt_coe, if_neg (slot_text_ne_null hmatch), if_pos hmatch]
  | succ t ih =>
    intro fuel s ft hs hf hpre hmatch
    obtain ⟨f, rfl⟩ : ∃ f, fuel = f + 1 := ⟨fuel - 1, by omega⟩
    have h0 := hpre 0 (by omega)
    rw [Nat.add_zero, Nat.mod_eq_of_lt hs] at h0
    rw [addLoop, slotAt_coe, if_neg h0.1, if_neg h0.2, next_index_coe hs]
    have hs' : (s + 1) % m.size < m.size := Nat.mod_lt _ (by omega)
    exact ih f ((s + 1) % m.size) _ hs' (by omega)
      (fun u hu => by rw [pos_shift]; exact hpre (u + 1) (by omega))
      (by rw [pos_shift]; exact hmatch)

lemma firstTombIn_mod (m : HMap) :
    ∀ t s : Nat, firstTombIn m (s % m.size) t = firstTombIn m s t := by
  intro t
  induction t with
  | zero => intro s; rfl
  | succ t ih =>
    intro s
    rw [firstTombIn, firstTombIn, Nat.mod_mod_of_dvd s dvd_rfl]
    by_cases h : slotN m (s % m.size) = Slot.tomb
    · rw [if_pos h, if_pos h]
    · rw [if_neg h, if_neg h, ← ih (s % m.size + 1), ← ih (s + 1), Nat.mod_add_mod]

lemma chosenIdx_step (m : HMap) {s : Nat} (t : Nat) (ft : Int)
    (hs : s < m.size) :
    chosenIdx m ft s (t + 1) =
      chosenIdx m (if ft = -1 ∧ slotN m s = Slot.tomb then (s : Int) else ft)
        ((s + 1) % m.size) t := by
  by_cases hft : ft = -1
  · by_cases htomb : slotN m s = Slot.tomb
    · have hcast : ((s : Int)) ≠ -1 := by omega
      rw [chosenIdx, if_pos hft, firstTombIn, Nat.mod_eq_of_lt hs, if_pos htomb,
        if_pos ⟨hft, htomb⟩, chosenIdx, if_neg hcast]
    · have hcond : ¬(ft = -1 ∧ slotN m s = Slot.tomb) := fun hc => htomb hc.2
      rw [chosenIdx, if_pos hft, firstTombIn, Nat.mod_eq_of_lt hs, if_neg htomb,
        if_neg hcond, chosenIdx, if_pos hft, ← firstTombIn_mod m t (s + 1)]
      cases hfd : firstTombIn m ((s + 1) % m.size) t
      · rw [pos_shift]
      · rfl
  · have hcond : ¬(ft = -1 ∧ slotN m s = Slot.tomb) := fun hc => hft hc.1
    rw [chosenIdx, if_neg hft, if_neg hcond, chosenIdx, if_neg hft]

lemma addLoop_place (m : HMap) (name : Key) :
    ∀ t fuel s : Nat, ∀ ft : Int, 1 ≤ m.size → s < m.size → t < fuel →
    (∀ u, u < t → slotN m ((s + u) % m.size) ≠ Slot.null ∧
      (slotN m ((s + u) % m.size)).text ≠ some name) →
    slotN m ((s + t) % m.size) = Slot.null →
    addLoop m name fuel (s : Int) ft =
      some { slots := m.slots.set (chosenIdx m ft s t).toNat (Slot.occ name),
             items := m.items + 1 } := by
  intro t
  induction t with
  | zero =>
    intro fuel s ft hn hs hf hpre hnull
    obtain ⟨f, rfl⟩ : ∃ f, fuel = f + 1 := ⟨fuel - 1, by omega⟩
    rw [Nat.add_zero, Nat.mod_eq_of_lt hs] at hnull
    rw [addLoop, slotAt_coe, if_pos hnull]
    have hch : (if ft = -1 then (s : Int) else ft) = chosenIdx m ft s 0 := by
      by_cases hft : ft = -1
      · rw [if_pos hft, chosenIdx, if_pos hft, firstTombIn, Nat.add_zero,
          Nat.mod_eq_of_lt hs]
      · rw [if_neg hft, chosenIdx, if_neg hft]
    rw [hch]
  | succ t ih =>
    intro fuel s ft hn hs hf hpre hnull
    obtain ⟨f, rfl⟩ : ∃ f, fuel = f + 1 := ⟨fuel - 1, by omega⟩
    have h0 := hpre 0 (by omega)
    rw [Nat.add_zero, Nat.mod_eq_of_lt hs] at h0
    rw [addLoop, slotAt_coe, if_neg h0.1, if_neg h0.2, next_index_coe hs]
    have hs' : (s + 1) % m.size < m.size := Nat.mod_lt _ (by omega)
    have hres := ih f ((s + 1) % m.size)
      (if ft = -1 ∧ slotN m s = Slot.tomb then (s : Int) else ft) hn hs' (by omega)
      (fun u hu => by rw [pos_shift]; exact hpre (u + 1) (by omega))
      (by rw [pos_shift]; exact hnull)
    rw [hres, ← chosenIdx_step m t ft hs]

lemma addLoop_none_of_all (m : HMap) (name : Key) (hn : 1 ≤ m.size)
    (h : ∀ j, j < m.size → slotN m j ≠ Slot.null ∧ (slotN m j).text ≠ some name) :
    ∀ fuel (i ft : Int), 0 ≤ i → i < (m.size : Int) → addLoop m name fuel i ft = none := by
  intro fuel
  induction fuel with
  | zero => intro i ft _ _; rfl
  | succ f ih =>
    intro i ft h0 h1
    have hj := h i.toNat (by omega)
    have hsl : slotAt m i = slotN m i.toNat := by
      rw [slotAt, if_neg (by omega)]
    have hb := next_index_bounds hn h0 h1
    rw [addLoop, hsl, if_neg hj.1, if_neg hj.2]
    exact ih _ _ hb.1 hb.2

lemma firstTombIn_spec (m : HMap) :
    ∀ t s j : Nat, firstTombIn m s t = some j →
      slotN m j = Slot.tomb ∧ ∃ u, u < t ∧ j = (s + u) % m.size := by
  intro t
  induction t with
  | zero => intro s j h; exact absurd h (by rw [firstTombIn]; simp)
  | succ t ih =>
    intro s j h
    rw [firstTombIn] at h
    by_cases htomb : slotN m (s % m.size) = Slot.tomb
    · rw [if_pos htomb] at h
      obtain rfl : s % m.size = j := by injection h
      exact ⟨htomb, 0, by omega, by rw [Nat.add_zero]⟩
    · rw [if_neg htomb] at h
      obtain ⟨hs, u, hu, rfl⟩ := ih (s + 1) j h
      exact ⟨hs, u + 1, by omega, by rw [show s + 1 + u = s + (u + 1) by ring]⟩

/-! ## Case analysis of one insert / one lookup -/

lemma no_stop_all_slots (m : HMap) (name : Key) (hn : 1 ≤ m.size) {s : Nat}
    (hs : s < m.size) (h : ∀ t, t < m.size → ¬ StopAt m name s t) :
    ∀ j, j < m.size → slotN m j ≠ Slot.null ∧ (slotN m j).text ≠ some name := by
  intro j hj
  obtain ⟨u, hu, hpos⟩ := walk_covers hn hs hj
  have := h u hu
  rw [StopAt, hpos] at this
  push_neg at this
  exact this

lemma addwo_spec (m : HMap) (name : Key) (hn : 1 ≤ m.size) (hgood : GoodKey name) :
    add_to_map_without_resizing m name = none ∨
    (add_to_map_without_resizing m name = some m ∧
      ∃ t, t < m.size ∧ (slotN m ((hashN m.size name + t) % m.size)).text = some name ∧
        ∀ u, u < t → slotN m ((hashN m.size name + u) % m.size) ≠ Slot.null ∧
          (slotN m ((hashN m.size name + u) % m.size)).text ≠ some name) ∨
    (∃ t j, t < m.size ∧ j < m.size ∧
      slotN m ((hashN m.size name + t) % m.size) = Slot.null ∧
      (∀ u, u < t → slotN m ((hashN m.size name + u) % m.size) ≠ Slot.null ∧
        (slotN m ((hashN m.size name + u) % m.size)).text ≠ some name) ∧
      (j = (hashN m.size name + t) % m.size ∨
        (slotN m j = Slot.tomb ∧ ∃ u, u < t ∧ j = (hashN m.size name + u) % m.size)) ∧
      add_to_map_without_resizing m name =
        some { slots := m.slots.set j (Slot.occ name), items := m.items + 1 }) := by
  set s := hashN m.size name with hsdef
  have hs : s < m.size := hashN_lt hn name
  have hunf : add_to_map_without_resizing m name =
      addLoop m name (m.size + 1) (s : Int) (-1) := by
    rw [add_to_map_without_resizing, if_neg (by omega), hash_good hgood.2]
  by_cases hstop : ∃ t, t < m.size ∧ StopAt m name s t
  · obtain ⟨tw, htw, hPw⟩ := hstop
    have hex : ∃ t, StopAt m name s t := ⟨tw, hPw⟩
    set t0 := Nat.find hex with ht0def
    have ht0 : StopAt m name s t0 := Nat.find_spec hex
    have ht0lt : t0 < m.size := lt_of_le_of_lt (Nat.find_min' hex hPw) htw
    have hpre : ∀ u, u < t0 → slotN m ((s + u) % m.size) ≠ Slot.null ∧
        (slotN m ((s + u) % m.size)).text ≠ some name := by
      intro u hu
      have := Nat.find_min hex hu
      rw [StopAt] at this
      push_neg at this
      exact this
    by_cases hnull : slotN m ((s + t0) % m.size) = Slot.null
    · right; right
      have hres := addLoop_place m name t0 (m.size + 1) s (-1) hn hs (by omega) hpre hnull
      rw [← hunf] at hres
      rw [chosenIdx, if_pos rfl] at hres
      cases hfd : firstTombIn m s t0 with
      | none =>
        rw [hfd] at hres
        exact ⟨t0, (s + t0) % m.size, ht0lt, Nat.mod_lt _ (by omega), hnull, hpre,
          Or.inl rfl, by rw [hres]; rfl⟩
      | some jj =>
        rw [hfd] at hres
        obtain ⟨htomb, u, hu, hju⟩ := firstTombIn_spec m t0 s jj hfd
        refine ⟨t0, jj, ht0lt, ?_, hnull, hpre, Or.inr ⟨htomb, u, hu, hju⟩, ?_⟩
        · rw [hju]; exact Nat.mod_lt _ (by omega)
        · rw [hres]; rfl
    · right; left
      have hmatch : (slotN m ((s + t0) % m.size)).text = some name := by
        rcases ht0 with h | h
        · exact absurd h hnull
        · exact h
      have hres := addLoop_match m name t0 (m.size + 1) s (-1) hs (by omega) hpre hmatch
      rw [← hunf] at hres
      exact ⟨hres, t0, ht0lt, hmatch, hpre⟩
  · left
    push_neg at hstop
    have hall := no_stop_all_slots m name hn hs hstop
    rw [hunf]
    exact addLoop_none_of_all m name hn hall (m.size + 1) (s : Int) (-1)
      (by omega) (by exact_mod_cast hs)

lemma index_of_spec (m : HMap) (name : Key) (hn : 1 ≤ m.size) (hgood : GoodKey name) :
    index_of m name = none ∨
    index_of m name = some (-1) ∨
    (∃ t, t < m.size ∧
      index_of m name = some (((hashN m.size name + t) % m.size : Nat) : Int) ∧
      (slotN m ((hashN m.size name + t) % m.size)).text = some name) := by
  set s := hashN m.size name with hsdef
  have hs : s < m.size := hashN_lt hn name
  have hunf : index_of m name = indexOfFrom m name (m.size + 1) (s : Int) := by
    rw [index_of, if_neg (by omega), hash_good hgood.2]
  by_cases hstop : ∃ t, t < m.size ∧ StopAt m name s t
  · obtain ⟨tw, htw, hPw⟩ := hstop
    have hex : ∃ t, StopAt m name s t := ⟨tw, hPw⟩
    set t0 := Nat.find hex with ht0def
    have ht0 : StopAt m name s t0 := Nat.find_spec hex
    have ht0lt : t0 < m.size := lt_of_le_of_lt (Nat.find_min' hex hPw) htw
    have hpre : ∀ u, u < t0 → slotN m ((s + u) % m.size) ≠ Slot.null ∧
        (slotN m ((s + u) % m.size)).text ≠ some name := by
      intro u hu
      have := Nat.find_min hex hu
      rw [StopAt] at this
      push_neg at this
      exact this
    by_cases hnull : slotN m ((s + t0) % m.size) = Slot.null
    · right; left
      rw [hunf]
      exact indexOfFrom_null m name t0 (m.size + 1) s hs (by omega) hpre hnull
    · right; right
      have hmatch : (slotN m ((s + t0) % m.size)).text = some name := by
        rcases ht0 with h | h
        · exact absurd h hnull
        · exact h
      refine ⟨t0, ht0lt, ?_, hmatch⟩
      rw [hunf]
      exact indexOfFrom_match m name t0 (m.size + 1) s hs (by omega) hpre hmatch
  · left
    push_neg at hstop
    have hall := no_stop_all_slots m name hn hs hstop
    rw [hunf]
    exact indexOfFrom_none_of_all m name hn hall (m.size + 1) (s : Int)
      (by omega) (by exact_mod_cast hs)

/-! ## Preservation of the structural invariant -/

lemma RBN_mono {m m' : HMap} (hsize : m'.size = m.size)
    (hnn : ∀ j, slotN m j ≠ Slot.null → slotN m' j ≠ Slot.null) {s i : Nat}
    (h : RBN m s i) : RBN m' s i := by
  obtain ⟨t, hpos, hpre⟩ := h
  refine ⟨t, by rw [hsize]; exact hpos, fun u hu => ?_⟩
  rw [hsize]
  exact hnn _ (hpre u hu)

lemma occCount_pos_of_occ {m : HMap} {j : Nat} {k : Key} (h : slotN m j = Slot.occ k) :
    1 ≤ occCount m := by
  have hj : j < m.slots.length := lt_size_of_slotN_ne_null (by simp [h])
  have hmem : Slot.occ k ∈ m.slots := by
    rw [slotN_getElem hj] at h
    rw [← h]
    exact List.getElem_mem hj
  exact List.countP_pos_iff.mpr ⟨_, hmem, rfl⟩

lemma occIn_of_mono {m m' : HMap}
    (hmono : ∀ j k, slotN m j = Slot.occ k → slotN m' j = Slot.occ k) {k : Key}
    (h : OccIn m k) : OccIn m' k := by
  rw [occIn_iff] at h ⊢
  obtain ⟨j, hj⟩ := h
  exact ⟨j, hmono j k hj⟩

lemma inv0_addwo {m m' : HMap} {name : Key} (hInv : Inv0 m) (hn : 1 ≤ m.size)
    (hgood : GoodKey name)
    (h : add_to_map_without_resizing m name = some m') :
    Inv0 m' ∧ m'.size = m.size ∧
    (∀ j k, slotN m j = Slot.occ k → slotN m' j = Slot.occ k) ∧
    ((m' = m ∧ ∃ j, (slotN m j).text = some name) ∨
      (m'.items = m.items + 1 ∧ occCount m' = occCount m + 1 ∧ OccIn m' name ∧
        (∀ j, slotN m j ≠ Slot.tomb → slotN m' j ≠ Slot.tomb))) := by
  obtain ⟨hchain, huniq, hitems⟩ := hInv
  rcases addwo_spec m name hn hgood with hnone | ⟨hres, t, htlt, hmatch, hpre⟩ |
    ⟨t, j, htlt, hjlt, hnull, hpre, hj, hres⟩
  · rw [hnone] at h
    exact absurd h (by simp)
  · rw [hres] at h
    injection h with h
    subst h
    exact ⟨⟨hchain, huniq, hitems⟩, rfl, fun j k hk => hk, Or.inl ⟨rfl, _, hmatch⟩⟩
  · rw [hres] at h
    injection h with h
    subst h
    set M : HMap := { slots := m.slots.set j (Slot.occ name), items := m.items + 1 }
      with hMdef
    set s := hashN m.size name with hsdef
    have hjl : j < m.slots.length := hjlt
    have hjslot : slotN m j = Slot.null ∨ slotN m j = Slot.tomb := by
      rcases hj with hj | hj
      · left; rw [hj]; exact hnull
      · right; exact hj.1
    have hsz : M.size = m.size := size_set
    have hself : slotN M j = Slot.occ name := slotN_set_self hjl
    have hne : ∀ j', j ≠ j' → slotN M j' = slotN m j' := fun j' hj' => slotN_set_ne hj'
    have hnn : ∀ j', slotN m j' ≠ Slot.null → slotN M j' ≠ Slot.null := by
      intro j' hj'
      by_cases he : j = j'
      · subst he; rw [hself]; simp
      · rw [hne j' he]; exact hj'
    have hmono : ∀ j' k, slotN m j' = Slot.occ k → slotN M j' = Slot.occ k := by
      intro j' k hk
      by_cases he : j = j'
      · subst he
        rcases hjslot with hh | hh <;> rw [hh] at hk <;> exact absurd hk (by simp)
      · rw [hne j' he]; exact hk
    have hnoname : ∀ i, slotN m i ≠ Slot.occ name := by
      intro i hocc
      obtain ⟨-, ti, hpos, hpre2⟩ := hchain i name hocc
      have hpos' : (s + ti % m.size) % m.size = i := by rw [Nat.add_mod_mod, hpos]
      have htile : ti % m.size ≤ ti := Nat.mod_le _ _
      rcases Nat.lt_trichotomy (ti % m.size) t with hlt | heq | hgt
      · exact (hpre _ hlt).2 (by rw [hpos', hocc]; rfl)
      · rw [heq] at hpos'
        rw [hpos'] at hnull
        rw [hocc] at hnull
        exact absurd hnull (by simp)
      · exact (hpre2 t (by omega)) hnull
    have hoc : occCount M = occCount m + 1 :=
      occCount_set_occ hjl (by rcases hjslot with hh | hh <;> rw [hh] <;> rfl)
    refine ⟨⟨?_, ?_, ?_⟩, hsz, hmono, Or.inr ⟨rfl, hoc, ?_, ?_⟩⟩
    · -- ChainOK
      intro i k2 hocc
      rw [hsz]
      by_cases he : j = i
      · subst he
        rw [hself] at hocc
        injection hocc with hocc
        subst hocc
        refine ⟨hgood, ?_⟩
        rcases hj with hj | hj
        · exact ⟨t, by rw [hsz, ← hj], fun u hu => by rw [hsz]; exact hnn _ (hpre u hu).1⟩
        · obtain ⟨-, u0, hu0, hju⟩ := hj
          exact ⟨u0, by rw [hsz, ← hju], fun u hu => by
            rw [hsz]; exact hnn _ (hpre u (by omega)).1⟩
      · rw [hne i he] at hocc
        obtain ⟨hg2, hrbn⟩ := hchain i k2 hocc
        exact ⟨hg2, RBN_mono hsz hnn hrbn⟩
    · -- Uniq
      intro i1 i2 k2 h1 h2
      by_cases he1 : j = i1 <;> by_cases he2 : j = i2
      · omega
      · subst he1
        rw [hself] at h1
        injection h1 with h1
        subst h1
        rw [hne i2 he2] at h2
        exact absurd h2 (hnoname i2)
      · subst he2
        rw [hself] at h2
        injection h2 with h2
        subst h2
        rw [hne i1 he1] at h1
        exact absurd h1 (hnoname i1)
      · rw [hne i1 he1] at h1
        rw [hne i2 he2] at h2
        exact huniq i1 i2 k2 h1 h2
    · -- ItemsLe
      show M.items ≤ (occCount M : Int)
      rw [hoc]
      show m.items + 1 ≤ ((occCount m + 1 : Nat) : Int)
      have hitems2 : m.items ≤ (occCount m : Int) := hitems
      push_cast
      omega
    · exact (occIn_iff _ _).mpr ⟨j, hself⟩
    · intro j' hj'
      by_cases he : j = j'
      · subst he; rw [hself]; simp
      · rw [hne j' he]; exact hj'

lemma remove_spec {m : HMap} {name : Key} {b : Bool} {m' : HMap} (hn : 1 ≤ m.size)
    (hgood : GoodKey name) (h : remove_from_map m name = some (b, m')) :
    (b = false ∧ m' = m) ∨
    (b = true ∧ ∃ j, j < m.size ∧ (slotN m j).text = some name ∧
      m' = { slots := m.slots.set j Slot.tomb, items := m.items - 1 }) := by
  unfold remove_from_map at h
  rcases index_of_spec m name hn hgood with hio | hio | ⟨t, htlt, hio, hmatch⟩
  · rw [hio] at h
    simp at h
  · rw [hio] at h
    simp at h
    exact Or.inl ⟨h.1, h.2.symm⟩
  · have hnegone : ¬ ((((hashN m.size name + t) % m.size : Nat) : Int) = -1) := by omega
    rw [hio] at h
    simp only [if_neg hnegone, Int.toNat_natCast, Option.some.injEq, Prod.mk.injEq] at h
    exact Or.inr ⟨h.1.symm, (hashN m.size name + t) % m.size, Nat.mod_lt _ (by omega),
      hmatch, h.2.symm⟩

lemma inv0_remove {m : HMap} {name : Key} {b : Bool} {m' : HMap} (hInv : Inv0 m)
    (hgood : GoodKey name) (h : remove_from_map m name = some (b, m')) :
    Inv0 m' ∧ m'.size = m.size ∧
    (m' = m ∨ ∃ j, j < m.size ∧ (slotN m j).text = some name ∧
      m' = { slots := m.slots.set j Slot.tomb, items := m.items - 1 }) := by
  obtain ⟨hchain, huniq, hitems⟩ := hInv
  have hn : 1 ≤ m.size := by
    by_contra hc
    rw [remove_from_map, index_of, if_pos (by omega)] at h
    simp at h
  rcases remove_spec hn hgood h with ⟨hb, hm⟩ | ⟨hb, j, hjlt, htext, hm⟩
  · subst hm
    exact ⟨⟨hchain, huniq, hitems⟩, rfl, Or.inl rfl⟩
  · subst hm
    set M : HMap := { slots := m.slots.set j Slot.tomb, items := m.items - 1 } with hMdef
    have hjl : j < m.slots.length := hjlt
    have hsz : M.size = m.size := size_set
    have hself : slotN M j = Slot.tomb := slotN_set_self hjl
    have hne : ∀ j', j ≠ j' → slotN M j' = slotN m j' := fun j' hj' => slotN_set_ne hj'
    have hnn : ∀ j', slotN m j' ≠ Slot.null → slotN M j' ≠ Slot.null := by
      intro j' hj'
      by_cases he : j = j'
      · subst he; rw [hself]; simp
      · rw [hne j' he]; exact hj'
    refine ⟨⟨?_, ?_, ?_⟩, hsz, Or.inr ⟨j, hjlt, htext, rfl⟩⟩
    · intro i k2 hocc
      rw [hsz]
      by_cases he : j = i
      · subst he
        rw [hself] at hocc
        exact absurd hocc (by simp)
      · rw [hne i he] at hocc
        obtain ⟨hg2, hrbn⟩ := hchain i k2 hocc
        exact ⟨hg2, RBN_mono hsz hnn hrbn⟩
    · intro i1 i2 k2 h1 h2
      by_cases he1 : j = i1
      · subst he1
        rw [hself] at h1
        exact absurd h1 (by simp)
      · by_cases he2 : j = i2
        · subst he2
          rw [hself] at h2
          exact absurd h2 (by simp)
        · rw [hne i1 he1] at h1
          rw [hne i2 he2] at h2
          exact huniq i1 i2 k2 h1 h2
    · show M.items ≤ (occCount M : Int)
      have hitems2 : m.items ≤ (occCount m : Int) := hitems
      have hoc := @occCount_set_tomb m j (m.items - 1) hjl
      show m.items - 1 ≤ (occCount M : Int)
      rw [hoc]
      by_cases hocc : isOcc (slotN m j)
      · have h1 : 1 ≤ occCount m := by
          rcases hs : slotN m j with _ | _ | k2
          · rw [hs] at hocc; simp [isOcc] at hocc
          · rw [hs] at hocc; simp [isOcc] at hocc
          · exact occCount_pos_of_occ hs
        rw [if_pos hocc]
        push_cast [h1]
        omega
      · rw [if_neg hocc]
        simp only [Nat.sub_zero]
        omega

/-! ## The rebuild pass of resize -/

lemma reAdd_none (l : List Slot) : l.foldl reAdd none = none := by
  induction l with
  | nil => rfl
  | cons s l ih =>
    rw [List.foldl_cons, show reAdd none s = none from rfl]
    exact ih

lemma slotN_replicate (nn : Nat) (it : Int) (j : Nat) :
    slotN { slots := List.replicate nn Slot.null, items := it } j = Slot.null := by
  by_cases h : j < nn
  · simp [slotN, List.getD, List.get?_eq_getElem?, List.getElem?_replicate, h]
  · exact slotN_of_len_le (by simp; omega)

lemma occCount_replicate (nn : Nat) (it : Int) :
    occCount { slots := List.replicate nn Slot.null, items := it } = 0 := by
  refine List.countP_eq_zero.mpr ?_
  intro a ha
  rw [List.eq_of_mem_replicate ha]
  simp [isOcc]

lemma chain_goodkeys {m : HMap} (hchain : ChainOK m) :
    ∀ k, Slot.occ k ∈ m.slots → GoodKey k := by
  intro k hk
  obtain ⟨j, hj⟩ := (occIn_iff m k).mp hk
  exact (hchain j k hj).1

lemma text_occ_of_tombfree {m : HMap} (htf : TombFree m) {j : Nat} {k : Key}
    (h : (slotN m j).text = some k) : slotN m j = Slot.occ k := by
  rcases hs : slotN m j with _ | _ | k2
  · rw [hs] at h
    exact absurd h (by simp [Slot.text])
  · exact absurd hs (htf j)
  · rw [hs] at h
    injection h with h
    rw [h]

lemma rebuild_fold (l : List Slot) :
    ∀ acc r : HMap, Inv0 acc → CountOK acc → TombFree acc → 1 ≤ acc.size →
    (∀ k, Slot.occ k ∈ l → GoodKey k) →
    l.foldl reAdd (some acc) = some r →
    Inv0 r ∧ CountOK r ∧ TombFree r ∧ r.size = acc.size ∧
      occCount r ≤ occCount acc + l.countP isOcc ∧
      (∀ k, OccIn acc k → OccIn r k) ∧
      (∀ k, Slot.occ k ∈ l → OccIn r k) := by
  induction l with
  | nil =>
    intro acc r h1 h2 h3 h4 h5 hr
    rw [List.foldl_nil] at hr
    injection hr with hr
    subst hr
    exact ⟨h1, h2, h3, rfl, by simp, fun k hk => hk, by simp⟩
  | cons s l ih =>
    intro acc r h1 h2 h3 h4 h5 hr
    rw [List.foldl_cons] at hr
    cases s with
    | null =>
      rw [show reAdd (some acc) Slot.null = some acc from rfl] at hr
      obtain ⟨ha, hb, hc, hd, he, hf, hg⟩ :=
        ih acc r h1 h2 h3 h4 (fun k hk => h5 k (List.mem_cons_of_mem _ hk)) hr
      refine ⟨ha, hb, hc, hd, ?_, hf, ?_⟩
      · rw [List.countP_cons]
        simp [isOcc]
        omega
      · intro k hk
        rcases List.mem_cons.mp hk with hk0 | hk2
        · exact absurd hk0 (by simp)
        · exact hg k hk2
    | tomb =>
      rw [show reAdd (some acc) Slot.tomb = some acc from rfl] at hr
      obtain ⟨ha, hb, hc, hd, he, hf, hg⟩ :=
        ih acc r h1 h2 h3 h4 (fun k hk => h5 k (List.mem_cons_of_mem _ hk)) hr
      refine ⟨ha, hb, hc, hd, ?_, hf, ?_⟩
      · rw [List.countP_cons]
        simp [isOcc]
        omega
      · intro k hk
        rcases List.mem_cons.mp hk with hk0 | hk2
        · exact absurd hk0 (by simp)
        · exact hg k hk2
    | occ k0 =>
      rw [show reAdd (some acc) (Slot.occ k0) = add_to_map_without_resizing acc k0
        from rfl] at hr
      cases haw : add_to_map_without_resizing acc k0 with
      | none =>
        rw [haw, reAdd_none] at hr
        exact absurd hr (by simp)
      | some acc2 =>
        rw [haw] at hr
        have hg0 : GoodKey k0 := h5 k0 (List.mem_cons_self _ _)
        obtain ⟨hi2, hsz2, hmono2, hpay⟩ := inv0_addwo h1 h4 hg0 haw
        have hc2 : CountOK acc2 := by
          rcases hpay with ⟨hee, -⟩ | ⟨hit, hoc, -, -⟩
          · subst hee; exact h2
          · show acc2.items = (occCount acc2 : Int)
            have h2' : acc.items = (occCount acc : Int) := h2
            rw [hit, hoc]
            push_cast
            omega
        have ht2 : TombFree acc2 := by
          rcases hpay with ⟨hee, -⟩ | ⟨-, -, -, htp⟩
          · subst hee; exact h3
          · intro j; exact htp j (h3 j)
        have hocc2 : OccIn acc2 k0 := by
          rcases hpay with ⟨hee, j, hj⟩ | ⟨-, -, ho, -⟩
          · subst hee
            exact (occIn_iff _ _).mpr ⟨j, text_occ_of_tombfree h3 hj⟩
          · exact ho
        have hcnt2 : occCount acc2 ≤ occCount acc + 1 := by
          rcases hpay with ⟨hee, -⟩ | ⟨-, hoc, -, -⟩
          · subst hee; omega
          · omega
        obtain ⟨ha, hb, hc, hd, he, hf, hg⟩ := ih acc2 r hi2 hc2 ht2
          (by rw [hsz2]; exact h4) (fun k hk => h5 k (List.mem_cons_of_mem _ hk)) hr
        refine ⟨ha, hb, hc, by rw [hd, hsz2], ?_, ?_, ?_⟩
        · rw [List.countP_cons]
          simp [isOcc]
          omega
        · intro k hk
          exact hf k (occIn_of_mono hmono2 hk)
        · intro k hk
          rcases List.mem_cons.mp hk with hk0 | hk2
          · injection hk0 with hk0
            subst hk0
            exact hf _ hocc2
          · exact hg k hk2

lemma inv0_resize {m m' : HMap} {ns : Int} (hInv : Inv0 m)
    (h : resize_map m ns = some m') :
    Inv0 m' ∧
    ((m' = m ∧ (ns < 1 ∨ 10 * m.items > 7 * ns)) ∨
      (1 ≤ ns ∧ 10 * m.items ≤ 7 * ns ∧ m'.size = ns.toNat ∧ CountOK m' ∧
        TombFree m' ∧ occCount m' ≤ occCount m ∧ (∀ k, OccIn m k → OccIn m' k))) := by
  by_cases hrej : ns < 1 ∨ 10 * m.items > 7 * ns
  · rw [resize_map, if_pos hrej] at h
    injection h with h
    subst h
    exact ⟨hInv, Or.inl ⟨rfl, hrej⟩⟩
  · rw [resize_map, if_neg hrej] at h
    push_neg at hrej
    obtain ⟨hns1, hnsLF⟩ := hrej
    set acc0 : HMap := { slots := List.replicate ns.toNat Slot.null, items := 0 }
      with hacc0
    have hs0 : ∀ j, slotN acc0 j = Slot.null := fun j => slotN_replicate _ _ _
    have hchain0 : ChainOK acc0 := by
      intro i k hocc
      rw [hs0 i] at hocc
      exact absurd hocc (by simp)
    have huniq0 : Uniq acc0 := by
      intro i1 i2 k hk1 hk2
      rw [hs0 i1] at hk1
      exact absurd hk1 (by simp)
    have hoc0 : occCount acc0 = 0 := occCount_replicate _ _
    have hitems0 : ItemsLe acc0 := by
      show acc0.items ≤ (occCount acc0 : Int)
      rw [hoc0]
      show (0 : Int) ≤ ((0 : Nat) : Int)
      omega
    have hcount0 : CountOK acc0 := by
      show acc0.items = (occCount acc0 : Int)
      rw [hoc0]
      rfl
    have htf0 : TombFree acc0 := fun j => by rw [hs0 j]; simp
    have hsz0 : acc0.size = ns.toNat := by
      show (List.replicate ns.toNat Slot.null).length = _
      simp
    have hgoods : ∀ k, Slot.occ k ∈ m.slots → GoodKey k := chain_goodkeys hInv.1
    obtain ⟨h1, h2, h3, h4, h5, h6, h7⟩ := rebuild_fold m.slots acc0 m'
      ⟨hchain0, huniq0, hitems0⟩ hcount0 htf0 (by rw [hsz0]; omega) hgoods h
    refine ⟨h1, Or.inr ⟨hns1, hnsLF, by rw [h4, hsz0], h2, h3, ?_, fun k hk => h7 k hk⟩⟩
    rw [hoc0] at h5
    exact le_trans h5 (by rw [Nat.zero_add]; exact le_rfl)

/-! ## The full insert operation -/

lemma inv0_add {m m' : HMap} {name : Key} (hInv : Inv0 m) (hgood : GoodKey name)
    (h : add_to_map m name = some m') :
    Inv0 m' ∧ LFOK m' ∧ (∀ k, OccIn m k → OccIn m' k) ∧ (CountOK m → CountOK m') := by
  rw [add_to_map] at h
  rcases hm1 : (if m.size = 0 then resize_map m 10 else some m) with _ | m1
  · rw [hm1] at h
    exact absurd h (by simp)
  rw [hm1] at h
  simp only [Option.some_bind] at h
  have hstep1 : Inv0 m1 ∧ 1 ≤ m1.size ∧ (∀ k, OccIn m k → OccIn m1 k) ∧
      (CountOK m → CountOK m1) := by
    by_cases hsz : m.size = 0
    · rw [if_pos hsz] at hm1
      obtain ⟨hi1, hpay⟩ := inv0_resize hInv hm1
      rcases hpay with ⟨he, -⟩ | ⟨-, -, h1c, h1d, -, -, h1g⟩
      · subst he
        rw [add_to_map_without_resizing, if_pos hsz] at h
        exact absurd h (by simp)
      · refine ⟨hi1, by rw [h1c]; omega, h1g, fun _ => h1d⟩
    · rw [if_neg hsz] at hm1
      injection hm1 with hm1
      subst hm1
      exact ⟨hInv, by omega, fun k hk => hk, fun hc => hc⟩
  obtain ⟨hInv1, hsz1, hocc1, hcnt1⟩ := hstep1
  rcases haw : add_to_map_without_resizing m1 name with _ | m2
  · rw [haw] at h
    exact absurd h (by simp)
  rw [haw] at h
  simp only [Option.some_bind] at h
  obtain ⟨hInv2, hsz2, hmono2, hpay2⟩ := inv0_addwo hInv1 hsz1 hgood haw
  have hsz2' : 1 ≤ m2.size := by rw [hsz2]; exact hsz1
  have hitems2 : m2.items ≤ (occCount m2 : Int) := hInv2.2.2
  have hocc2size : occCount m2 ≤ m2.size := occCount_le_size m2
  have hcnt2 : CountOK m1 → CountOK m2 := by
    rcases hpay2 with ⟨he, -⟩ | ⟨hit, hoc, -, -⟩
    · subst he; exact fun hc => hc
    · intro hc
      have hc' : m1.items = (occCount m1 : Int) := hc
      show m2.items = (occCount m2 : Int)
      rw [hit, hoc]
      push_cast
      omega
  have hoccp2 : ∀ k, OccIn m1 k → OccIn m2 k := fun k hk => occIn_of_mono hmono2 hk
  by_cases hlf : 10 * m2.items > 7 * (m2.size : Int)
  · rw [if_pos hlf] at h
    obtain ⟨hInv3, hpay3⟩ := inv0_resize hInv2 h
    rcases hpay3 with ⟨-, hguard⟩ | ⟨-, -, h3c, h3d, -, h3f, h3g⟩
    · rcases hguard with hg1 | hg2
      · omega
      · have : (occCount m2 : Int) ≤ (m2.size : Int) := by exact_mod_cast hocc2size
        omega
    · have hsz3 : (m'.size : Int) = 2 * (m2.size : Int) := by
        rw [h3c]
        omega
      have hcm' : m'.items = (occCount m' : Int) := h3d
      have hcle : (occCount m' : Int) ≤ (occCount m2 : Int) := by exact_mod_cast h3f
      have hole : (occCount m2 : Int) ≤ (m2.size : Int) := by exact_mod_cast hocc2size
      refine ⟨hInv3, ?_, fun k hk => h3g k (hoccp2 k (hocc1 k hk)), fun _ => h3d⟩
      show 10 * m'.items ≤ 7 * (m'.size : Int)
      omega
  · rw [if_neg hlf] at h
    injection h with h
    subst h
    exact ⟨hInv2, by show 10 * m2.items ≤ 7 * (m2.size : Int); omega,
      fun k hk => hoccp2 k (hocc1 k hk), fun hc => hcnt2 (hcnt1 hc)⟩

/-! ## Searching for a stored key succeeds; inserting it again is a no-op -/

lemma occ_first_stop {m : HMap} {k : Key} (hchain : ChainOK m) {i : Nat}
    (hi : slotN m i = Slot.occ k) :
    ∃ t0, t0 < m.size ∧
      (∀ u, u < t0 → slotN m ((hashN m.size k + u) % m.size) ≠ Slot.null ∧
        (slotN m ((hashN m.size k + u) % m.size)).text ≠ some k) ∧
      (slotN m ((hashN m.size k + t0) % m.size)).text = some k := by
  have hn : 1 ≤ m.size := by
    have := lt_size_of_slotN_ne_null (m := m) (j := i) (by simp [hi])
    omega
  obtain ⟨-, ti, hpos, hpre2⟩ := hchain i k hi
  set s := hashN m.size k with hs
  have hpos' : (s + ti % m.size) % m.size = i := by rw [Nat.add_mod_mod, hpos]
  have htile : ti % m.size ≤ ti := Nat.mod_le _ _
  have hstop' : StopAt m k s (ti % m.size) := Or.inr (by rw [hpos', hi]; rfl)
  have hex : ∃ t, StopAt m k s t := ⟨ti % m.size, hstop'⟩
  set t0 := Nat.find hex with ht0
  have hft0 : StopAt m k s t0 := Nat.find_spec hex
  have ht0le : t0 ≤ ti % m.size := Nat.find_min' hex hstop'
  have ht0lt : t0 < m.size := lt_of_le_of_lt ht0le (Nat.mod_lt _ (by omega))
  have hpre : ∀ u, u < t0 → ¬ StopAt m k s u := fun u hu => Nat.find_min hex hu
  have hnotnull : slotN m ((s + t0) % m.size) ≠ Slot.null := by
    rcases Nat.lt_or_ge t0 (ti % m.size) with hlt | hge
    · exact hpre2 t0 (by omega)
    · have heq : t0 = ti % m.size := le_antisymm ht0le hge
      rw [heq, hpos', hi]
      simp
  have hmatch : (slotN m ((s + t0) % m.size)).text = some k := by
    rcases hft0 with hh | hh
    · exact absurd hh hnotnull
    · exact hh
  refine ⟨t0, ht0lt, fun u hu => ?_, hmatch⟩
  have := hpre u hu
  rw [StopAt] at this
  push_neg at this
  exact this

lemma search_true {m : HMap} {k : Key} (hInv : Inv0 m) (hOcc : OccIn m k) :
    search_map m k = some true := by
  obtain ⟨i, hi⟩ := (occIn_iff m k).mp hOcc
  have hn : 1 ≤ m.size := by
    have := lt_size_of_slotN_ne_null (m := m) (j := i) (by simp [hi])
    omega
  have hgood : GoodKey k := (hInv.1 i k hi).1
  obtain ⟨t0, ht0lt, hpre, hmatch⟩ := occ_first_stop hInv.1 hi
  have hs : hashN m.size k < m.size := hashN_lt hn k
  have hio : index_of m k = some (((hashN m.size k + t0) % m.size : Nat) : Int) := by
    rw [index_of, if_neg (by omega), hash_good hgood.2]
    exact indexOfFrom_match m k t0 (m.size + 1) _ hs (by omega) hpre hmatch
  rw [search_map, hio]
  show some (if (((hashN m.size k + t0) % m.size : Nat) : Int) = -1 then false else true) =
    some true
  rw [if_neg (by omega)]

lemma add_noop {m : HMap} {k : Key} (hInv : Inv0 m) (hLF : LFOK m) (hOcc : OccIn m k) :
    add_to_map m k = some m := by
  obtain ⟨i, hi⟩ := (occIn_iff m k).mp hOcc
  have hn : 1 ≤ m.size := by
    have := lt_size_of_slotN_ne_null (m := m) (j := i) (by simp [hi])
    omega
  have hgood : GoodKey k := (hInv.1 i k hi).1
  obtain ⟨t0, ht0lt, hpre, hmatch⟩ := occ_first_stop hInv.1 hi
  have hs : hashN m.size k < m.size := hashN_lt hn k
  have haw : add_to_map_without_resizing m k = some m := by
    rw [add_to_map_without_resizing, if_neg (by omega), hash_good hgood.2]
    exact addLoop_match m k t0 (m.size + 1) _ (-1) hs (by omega) hpre hmatch
  have hLF' : 10 * m.items ≤ 7 * (m.size : Int) := hLF
  rw [add_to_map, if_neg (by omega), Option.some_bind, haw, Option.some_bind,
    if_neg (by omega)]

/-! ## Preservation along whole operation sequences -/

lemma countOK_set_tomb {m : HMap} {j : Nat} {kk : Key} (hc : CountOK m)
    (hjocc : slotN m j = Slot.occ kk) :
    CountOK { slots := m.slots.set j Slot.tomb, items := m.items - 1 } := by
  have hjl : j < m.slots.length := lt_size_of_slotN_ne_null (by simp [hjocc])
  have hoc := @occCount_set_tomb m j (m.items - 1) hjl
  rw [if_pos (by rw [hjocc]; rfl)] at hoc
  have h1 : 1 ≤ occCount m := occCount_pos_of_occ hjocc
  have hc' : m.items = (occCount m : Int) := hc
  show m.items - 1 = _
  rw [hoc, Nat.cast_sub h1]
  push_cast
  omega

lemma inv0_step {m m' : HMap} {op : Op} (hInv : Inv0 m) (hgood : GoodOp op)
    (h : step m op = some m') :
    Inv0 m' ∧
    (∀ k, OccIn m k → op ≠ Op.del k → OccIn m' k) ∧
    (CountOK m → op ≠ Op.del tombLit → CountOK m') ∧
    (CountOK m → LFOK m → op ≠ Op.del tombLit → LFOK m') := by
  cases op with
  | ins k0 =>
    obtain ⟨h1, h2, h3, h4⟩ := inv0_add hInv hgood h
    exact ⟨h1, fun k hk _ => h3 k hk, fun hc _ => h4 hc, fun _ _ _ => h2⟩
  | rsz z =>
    obtain ⟨h1, hpay⟩ := inv0_resize hInv h
    rcases hpay with ⟨he, -⟩ | ⟨hz1, hzle, hsz, hcnt, -, hole, hoccp⟩
    · subst he
      exact ⟨h1, fun k hk _ => hk, fun hc _ => hc, fun _ hl _ => hl⟩
    · refine ⟨h1, fun k hk _ => hoccp k hk, fun _ _ => hcnt, fun hc hl _ => ?_⟩
      show 10 * m'.items ≤ 7 * (m'.size : Int)
      have h1' : m'.items = (occCount m' : Int) := hcnt
      have h2' : (occCount m' : Int) ≤ (occCount m : Int) := by exact_mod_cast hole
      have h3' : m.items = (occCount m : Int) := hc
      have h4' : (m'.size : Int) = z := by
        rw [hsz]
        omega
      omega
  | del k0 =>
    rcases hrm : remove_from_map m k0 with _ | p
    · rw [show step m (Op.del k0) = (remove_from_map m k0).map Prod.snd from rfl,
        hrm] at h
      exact absurd h (by simp)
    obtain ⟨b, m2⟩ := p
    rw [show step m (Op.del k0) = (remove_from_map m k0).map Prod.snd from rfl,
      hrm] at h
    have hm2 : m2 = m' := by simpa using h
    subst hm2
    obtain ⟨hI, hszr, hpayr⟩ := inv0_remove hInv hgood hrm
    refine ⟨hI, ?_, ?_, ?_⟩
    · intro k hk hne
      have hkk : k0 ≠ k := fun he => hne (by rw [he])
      rcases hpayr with he | ⟨j, hjlt, htext, he⟩
      · rw [he]; exact hk
      · rw [occIn_iff] at hk ⊢
        obtain ⟨i, hi⟩ := hk
        rw [he]
        by_cases hij : j = i
        · subst hij
          rw [hi] at htext
          injection htext with hh
          exact absurd hh.symm hkk
        · exact ⟨i, by rw [slotN_set_ne hij]; exact hi⟩
    · intro hc hne
      have hkk : k0 ≠ tombLit := fun he => hne (by rw [he])
      rcases hpayr with he | ⟨j, hjlt, htext, he⟩
      · rw [he]; exact hc
      · have hjocc : ∃ kk, slotN m j = Slot.occ kk := by
          rcases hsj : slotN m j with _ | _ | kk
          · rw [hsj] at htext
            exact absurd htext (by simp [Slot.text])
          · rw [hsj] at htext
            injection htext with hh
            exact absurd hh.symm hkk
          · exact ⟨kk, rfl⟩
        obtain ⟨kk, hjocc⟩ := hjocc
        rw [he]
        exact countOK_set_tomb hc hjocc
    · intro hc hl hne
      have hl' : 10 * m.items ≤ 7 * (m.size : Int) := hl
      rcases hpayr with he | ⟨j, hjlt, htext, he⟩
      · rw [he]; exact hl
      · have hit : m2.items = m.items - 1 := by rw [he]
        show 10 * m2.items ≤ 7 * (m2.size : Int)
        rw [hszr, hit]
        omega

lemma inv0_initMap : Inv0 initMap := by
  refine ⟨?_, ?_, ?_⟩
  · intro i k h
    rw [slotN_of_len_le (by simp [initMap])] at h
    exact absurd h (by simp)
  · intro i1 i2 k h1 h2
    rw [slotN_of_len_le (by simp [initMap])] at h1
    exact absurd h1 (by simp)
  · show (0 : Int) ≤ _
    positivity

lemma countOK_initMap : CountOK initMap := by
  show (0 : Int) = ((occCount initMap : Nat) : Int)
  rfl

lemma lfOK_initMap : LFOK initMap := by
  show 10 * (0 : Int) ≤ 7 * _
  simp

lemma runOps_inv0 : ∀ (ops : List Op) (m m' : HMap), Inv0 m → GoodOps ops →
    runOps m ops = some m' →
    Inv0 m' ∧
    (∀ k, OccIn m k → (∀ op ∈ ops, op ≠ Op.del k) → OccIn m' k) ∧
    (CountOK m → NoTombDel ops → CountOK m') ∧
    (CountOK m → LFOK m → NoTombDel ops → CountOK m' ∧ LFOK m') := by
  intro ops
  induction ops with
  | nil =>
    intro m m' h1 h2 hr
    rw [runOps] at hr
    injection hr with hr
    subst hr
    exact ⟨h1, fun k hk _ => hk, fun hc _ => hc, fun hc hl _ => ⟨hc, hl⟩⟩
  | cons op rest ih =>
    intro m m' h1 h2 hr
    rw [runOps] at hr
    rcases hstep : step m op with _ | m2
    · rw [hstep] at hr
      exact absurd hr (by simp)
    rw [hstep] at hr
    simp only [Option.some_bind] at hr
    have hgop : GoodOp op := h2 op (List.mem_cons_self _ _)
    have hgrest : GoodOps rest := fun o ho => h2 o (List.mem_cons_of_mem _ ho)
    obtain ⟨s1, s2, s3, s4⟩ := inv0_step h1 hgop hstep
    obtain ⟨r1, r2, r3, r4⟩ := ih m2 m' s1 hgrest hr
    refine ⟨r1, ?_, ?_, ?_⟩
    · intro k hk hno
      exact r2 k (s2 k hk (hno op (List.mem_cons_self _ _)))
        (fun o ho => hno o (List.mem_cons_of_mem _ ho))
    · intro hc hnd
      have hop : op ≠ Op.del tombLit := hnd op (List.mem_cons_self _ _)
      exact r3 (s3 hc hop) (fun o ho => hnd o (List.mem_cons_of_mem _ ho))
    · intro hc hl hnd
      have hop : op ≠ Op.del tombLit := hnd op (List.mem_cons_self _ _)
      exact r4 (s3 hc hop) (s4 hc hl hop) (fun o ho => hnd o (List.mem_cons_of_mem _ ho))

lemma reach_inv0 {ops : List Op} {m : HMap} (hg : GoodOps ops)
    (hr : runOps initMap ops = some m) : Inv0 m :=
  (runOps_inv0 ops initMap m inv0_initMap hg hr).1

lemma reach_count {ops : List Op} {m : HMap} (hg : GoodOps ops) (hnd : NoTombDel ops)
    (hr : runOps initMap ops = some m) : CountOK m :=
  (runOps_inv0 ops initMap m inv0_initMap hg hr).2.2.1 countOK_initMap hnd

lemma reach_lf {ops : List Op} {m : HMap} (hg : GoodOps ops) (hnd : NoTombDel ops)
    (hr : runOps initMap ops = some m) : LFOK m :=
  ((runOps_inv0 ops initMap m inv0_initMap hg hr).2.2.2 countOK_initMap lfOK_initMap hnd).2

/-! ## Wrapping keys and the spec-side search -/

lemma wrap32_zero : wrap32 0 = 0 := by norm_num [wrap32]

lemma csum_replicate_aux (c : Nat) :
    ∀ (n : Nat) (a : Int),
      (List.replicate n c).foldl (fun (s : Int) (cc : Nat) => wrap32 (s + (cc : Int)))
        (wrap32 a) = wrap32 (a + n * c) := by
  intro n
  induction n with
  | zero => intro a; simp
  | succ n ih =>
    intro a
    rw [List.replicate_succ, List.foldl_cons, wrap32_add_left, ih (a + (c : Int))]
    congr 1
    push_cast
    ring

lemma csum_replicate (n c : Nat) :
    csum (List.replicate n c) = wrap32 ((n : Int) * (c : Int)) := by
  rw [csum, ← wrap32_zero, csum_replicate_aux c n 0]
  norm_num

lemma indexOfFrom_spec_eq (m : HMap) (name : Key) (h : name ≠ tombLit) :
    ∀ (fuel : Nat) (i : Int),
      (indexOfFrom m name fuel i).map (fun j => if j = -1 then false else true) =
        searchSpecFrom m name fuel i := by
  intro fuel
  induction fuel with
  | zero => intro i; rfl
  | succ f ih =>
    intro i
    rw [indexOfFrom, searchSpecFrom]
    rcases hs : slotAt m i with _ | _ | k2
    · simp
    · rw [if_neg (by simp),
        if_neg (show ¬ (Slot.tomb.text = some name) from by
          intro hh
          injection hh with hh
          exact h hh.symm)]
      exact ih _
    · have hi0 : ¬ i < 0 := by
        intro hc
        rw [slotAt, if_pos hc] at hs
        exact absurd hs (by simp)
      by_cases hk : k2 = name
      · subst hk
        rw [if_neg (by simp), if_pos (show (Slot.occ k2).text = some k2 from rfl)]
        show some (if i = -1 then false else true) = if k2 = k2 then some true else _
        rw [if_neg (by omega), if_pos rfl]
      · rw [if_neg (by simp),
          if_neg (show ¬ ((Slot.occ k2).text = some name) from by
            intro hh
            injection hh with hh
            exact hk hh)]
        show _ = if k2 = name then some true else searchSpecFrom m name f (next_index m.size i)
        rw [if_neg hk]
        exact ih _

/-! ## The claims -/

/-- C1.  Find-after-insert: for every sequence of insert/delete/resize
operations on faithful ASCII keys, a key whose insert succeeded (it occupies
a slot after the insert) and that is not deleted afterwards is still found:
`search_map` returns true at any later point, across intervening resizes and
deletions of other keys. -/
theorem c1_find_after_insert (pre post : List Op) (k : Key) (ma mb mc : HMap)
    (hgpre : GoodOps pre) (hk : GoodKey k) (hgpost : GoodOps post)
    (hpre : runOps initMap pre = some ma)
    (hins : add_to_map ma k = some mb)
    (hsucc : OccIn mb k)
    (hnodel : ∀ op ∈ post, op ≠ Op.del k)
    (hpost : runOps mb post = some mc) :
    search_map mc k = some true := by
  have hIa : Inv0 ma := reach_inv0 hgpre hpre
  obtain ⟨hIb, -, -, -⟩ := inv0_add hIa hk hins
  obtain ⟨hIc, hocc, -, -⟩ := runOps_inv0 post mb mc hIb hgpost hpost
  exact search_true hIc (hocc k hsucc hnodel)

/-- Witness for C1: insert "a" into the uninitialised table, then search. -/
theorem c1_find_after_insert_witness : search_map c1Map [97] = some true :=
  c1_find_after_insert [] [] [97] initMap c1Map c1Map (by decide) (by decide)
    (by decide) (by decide) (by decide) (by decide) (by decide) (by decide)

/-- C2 (counterexample).  The count invariant fails on the code as stated:
the reachable sequence resize(2), insert "a", delete "a", delete "tombstone"
leaves the stored count at -1 while no slot is Occupied — `remove_from_map`
matches the tombstone marker's text and decrements the counter without
removing an Occupied slot. -/
theorem c2_counterexample :
    runOps initMap [Op.rsz 2, Op.ins [97], Op.del [97], Op.del tombLit] =
      some { slots := [Slot.null, Slot.tomb], items := -1 } ∧
    HMap.items { slots := [Slot.null, Slot.tomb], items := -1 } ≠
      (occCount { slots := [Slot.null, Slot.tomb], items := -1 } : Int) := by
  decide

/-- C2 (amended).  In every table state reachable by operations on faithful
ASCII keys in which no delete is called with the marker text "tombstone",
the stored count equals the number of Occupied slots. -/
theorem c2_count_invariant (ops : List Op) (m : HMap) (hg : GoodOps ops)
    (hnd : NoTombDel ops) (hr : runOps initMap ops = some m) :
    m.items = (occCount m : Int) :=
  reach_count hg hnd hr

/-- Witness for C2: the table reached by resize(2); insert "a". -/
theorem c2_count_invariant_witness :
    HMap.items { slots := [Slot.null, Slot.occ [97]], items := 1 } =
      (occCount { slots := [Slot.null, Slot.occ [97]], items := 1 } : Int) :=
  c2_count_invariant [Op.rsz 2, Op.ins [97]] _ (by decide) (by decide) (by decide)

/-- C3 (counterexample).  Search does not treat Tombstone slots as
never-a-match: on the reachable table with a tombstone in slot 1, searching
for the text "tombstone" returns true (the code `strcmp`s the marker's own
text), while the specified search (tombstones skipped, only Occupied keys
compared) returns false. -/
theorem c3_counterexample :
    runOps initMap [Op.rsz 2, Op.ins [97], Op.del [97]] = some c3Map ∧
    search_map c3Map tombLit = some true ∧
    search_spec c3Map tombLit = some false := by
  decide

/-- C3 (amended).  For every table and every key other than the marker text
"tombstone", `search_map` behaves exactly as the spec describes: probe from
the hash along the linear wrap-around sequence, compare Occupied keys,
return true iff a match occurs before the first Empty slot, with Tombstones
skipped and never a match (`search_spec` is that description, and the two
agree also in divergence and in the uninitialised case). -/
theorem c3_search_refines_spec (m : HMap) (name : Key) (h : name ≠ tombLit) :
    search_map m name = search_spec m name := by
  rw [search_map, search_spec, index_of]
  by_cases hsz : m.size = 0
  · simp only [if_pos hsz]
    rfl
  · simp only [if_neg hsz]
    exact indexOfFrom_spec_eq m name h (m.size + 1) (hash_function m.size name)

/-- Witness for C3: a one-slot empty table and the key "a". -/
theorem c3_search_refines_spec_witness :
    search_map { slots := [Slot.null], items := 0 } [97] =
      search_spec { slots := [Slot.null], items := 0 } [97] :=
  c3_search_refines_spec _ [97] (by decide)

/-- C4.  Load-factor ceiling: after any `add_to_map` call that returns
(started from any reachable state, including the uninitialised one, with any
faithful ASCII key, duplicate or new), the stored count and capacity satisfy
count/capacity <= 0.7 — stated exactly as 10*count <= 7*capacity, which is
equivalent to the double comparison the code performs. -/
theorem c4_load_factor_ceiling (ops : List Op) (k : Key) (m m' : HMap)
    (hg : GoodOps ops) (hk : GoodKey k)
    (hr : runOps initMap ops = some m) (h : add_to_map m k = some m') :
    10 * m'.items ≤ 7 * (m'.size : Int) := by
  obtain ⟨-, hlf, -, -⟩ := inv0_add (reach_inv0 hg hr) hk h
  exact hlf

/-- Witness for C4: the first insert into the uninitialised table. -/
theorem c4_load_factor_ceiling_witness :
    10 * c1Map.items ≤ 7 * (c1Map.size : Int) :=
  c4_load_factor_ceiling [] [97] initMap c1Map (by decide) (by decide) (by decide)
    (by decide)

/-- C5 (counterexample).  Re-inserting an already-present key is not always
a no-op: after resize(7), inserts "b","c","d","e", delete "b", delete
"tombstone" (which corrupts the counter), resize(4), the table holds
"d","e","c" with stored count 3 at capacity 4; re-inserting the present key
"d" is rejected as a duplicate but then the load-factor check fires and the
capacity doubles to 8, so the state changes (count stays 3). -/
theorem c5_counterexample :
    runOps initMap [Op.rsz 7, Op.ins [98], Op.ins [99], Op.ins [100], Op.ins [101],
      Op.del [98], Op.del tombLit, Op.rsz 4] = some c5Map ∧
    OccIn c5Map [100] ∧
    add_to_map c5Map [100] = some c5Map2 ∧
    c5Map2 ≠ c5Map := by
  decide

/-- C5 (amended).  In every reachable state no two Occupied slots hold equal
keys (case-sensitive exact match); and when no operation of the sequence
deleted the marker text "tombstone", re-inserting an already-present key is
a complete no-op (the state, hence the count, is unchanged). -/
theorem c5_uniqueness (ops : List Op) (m : HMap) (hg : GoodOps ops)
    (hr : runOps initMap ops = some m) :
    Uniq m ∧ (NoTombDel ops → ∀ k, OccIn m k → add_to_map m k = some m) := by
  have hI := reach_inv0 hg hr
  exact ⟨hI.2.1, fun hnd k hk => add_noop hI (reach_lf hg hnd hr) hk⟩

/-- Witness for C5: the table reached by resize(2); insert "a". -/
theorem c5_uniqueness_witness :
    Uniq { slots := [Slot.null, Slot.occ [97]], items := 1 } ∧
      (NoTombDel [Op.rsz 2, Op.ins [97]] →
        ∀ k, OccIn { slots := [Slot.null, Slot.occ [97]], items := 1 } k →
          add_to_map { slots := [Slot.null, Slot.occ [97]], items := 1 } k =
            some { slots := [Slot.null, Slot.occ [97]], items := 1 }) :=
  c5_uniqueness [Op.rsz 2, Op.ins [97]] _ (by decide) (by decide)

/-- C6.  Concrete scenario: from the uninitialised table, resize(6) gives
capacity 6 and count 0; inserting "Alpha","Bravo","Alpha"(duplicate,
rejected),"Charlie","Delta" yields count 4 at capacity 6 with no resize;
inserting "Echo" reaches count 5 and doubles the capacity to 12;
search("Alpha") is true; delete("Charlie") returns true, leaves count 4 and
a Tombstone in Charlie's slot (slot 0); search("Echo") is true; re-inserting
"Charlie" reuses the Tombstone slot, giving count 5 with no growth — indeed
exactly the pre-deletion table again. -/
theorem c6_concrete_scenario :
    resize_map initMap 6 = some { slots := List.replicate 6 Slot.null, items := 0 } ∧
    runOps { slots := List.replicate 6 Slot.null, items := 0 }
      [Op.ins alphaK, Op.ins bravoK, Op.ins alphaK, Op.ins charlieK, Op.ins deltaK] =
      some c6Table6 ∧
    c6Table6.size = 6 ∧ c6Table6.items = 4 ∧
    add_to_map c6Table6 echoK = some c6Table12 ∧
    c6Table12.size = 12 ∧ c6Table12.items = 5 ∧
    search_map c6Table12 alphaK = some true ∧
    remove_from_map c6Table12 charlieK = some (true, c6TableDel) ∧
    c6TableDel.items = 4 ∧
    slotN c6Table12 0 = Slot.occ charlieK ∧ slotN c6TableDel 0 = Slot.tomb ∧
    search_map c6TableDel echoK = some true ∧
    add_to_map c6TableDel charlieK = some c6Table12 := by
  decide

/-- C7.  Resize rejection atomicity: for every table state, `resize_map`
with new_capacity < 1, or with 10*count > 7*new_capacity (the exact integer
form of count/new_capacity > 0.7), returns the state completely unchanged —
same capacity, same count, every slot identical. -/
theorem c7_resize_rejection (m : HMap) (ns : Int)
    (h : ns < 1 ∨ 10 * m.items > 7 * ns) :
    resize_map m ns = some m := by
  rw [resize_map, if_pos h]

/-- Witness for C7: resize(0) on the uninitialised table. -/
theorem c7_resize_rejection_witness : resize_map initMap 0 = some initMap :=
  c7_resize_rejection initMap 0 (Or.inl (by decide))

/-- C8.  Termination fails: the state with slots ["b", Tombstone] and count 1
is reachable by public operations (resize(2); insert "a"; delete "a";
insert "b"), yet searching it for the absent key "d" (code 100, hash 0)
never terminates — for every fuel the probe loop of `index_of` fails to
reach a NULL slot or a match, because no slot is NULL; the model's
`search_map` accordingly has no result. -/
theorem c8_search_divergence :
    runOps initMap [Op.rsz 2, Op.ins [97], Op.del [97], Op.ins [98]] = some c8Map ∧
    (∀ fuel : Nat, indexOfFrom c8Map [100] fuel 0 = none ∧
      indexOfFrom c8Map [100] fuel 1 = none) ∧
    search_map c8Map [100] = none := by
  refine ⟨by decide, ?_, by decide⟩
  intro fuel
  induction fuel with
  | zero => exact ⟨rfl, rfl⟩
  | succ f ih =>
    constructor
    · rw [indexOfFrom, if_neg (by decide), if_neg (by decide),
        show next_index c8Map.size 0 = 1 from by decide]
      exact ih.2
    · rw [indexOfFrom, if_neg (by decide), if_neg (by decide),
        show next_index c8Map.size 1 = 0 from by decide]
      exact ih.1

/-- C9 (counterexample).  The hash is not always in [0, capacity): for the
2^25-byte ASCII key of code-127 characters the running int sum wraps to a
negative value and C's `%` (truncated remainder) yields a negative index at
capacity 10. -/
theorem c9_counterexample : hash_function 10 bigKey9 < 0 := by
  rw [hash_function, bigKey9, csum_replicate]
  decide

/-- C9 (amended).  For every capacity >= 1 and every key whose character-code
sum stays below 2^31 (so the wrapping accumulation never actually wraps),
`hash_function` equals the code sum reduced modulo the capacity and lies in
[0, capacity); for longer keys the wrapped sum can be negative and the
returned index is then negative (see the counterexample). -/
theorem c9_hash_range (k : Key) (n : Nat) (hn : 1 ≤ n) (hsum : natSum k < 2 ^ 31) :
    hash_function n k = ((natSum k % n : Nat) : Int) ∧
    0 ≤ hash_function n k ∧ hash_function n k < (n : Int) := by
  have he : hash_function n k = ((hashN n k : Nat) : Int) := hash_good hsum
  refine ⟨he, by rw [he]; positivity, ?_⟩
  rw [he]
  exact_mod_cast hashN_lt hn k

/-- Witness for C9: the key "a" at capacity 10. -/
theorem c9_hash_range_witness :
    hash_function 10 [97] = ((natSum [97] % 10 : Nat) : Int) ∧
    0 ≤ hash_function 10 [97] ∧ hash_function 10 [97] < (10 : Int) :=
  c9_hash_range [97] 10 (by decide) (by decide)

/-- C10 (counterexample).  Under the precondition capacity >= 1 the probed
indices are not always in [0, capacity): the probe start `hash_function`
itself is negative for a wrapping key at capacity 5. -/
theorem c10_counterexample : hash_function 5 bigKey10 < 0 := by
  rw [hash_function, bigKey10, csum_replicate]
  decide

/-- C10 (amended).  `search_map` and `remove_from_map` are undefined on the
uninitialised table: with capacity 0 the code evaluates `sum % 0` (and reads
a NULL array), modelled as no result; under the precondition capacity >= 1,
for keys whose code sum does not wrap, `hash_function` lies in [0, capacity)
and `next_index` maps [0, capacity) into itself, so every probed index stays
in range. -/
theorem c10_preconditions (m : HMap) (k : Key) (n : Nat) (h0 : m.size = 0)
    (hn : 1 ≤ n) (hsum : natSum k < 2 ^ 31) :
    search_map m k = none ∧ remove_from_map m k = none ∧
    (0 ≤ hash_function n k ∧ hash_function n k < (n : Int)) ∧
    (∀ i : Int, 0 ≤ i → i < (n : Int) →
      0 ≤ next_index n i ∧ next_index n i < (n : Int)) := by
  refine ⟨?_, ?_, ?_, ?_⟩
  · rw [search_map, index_of, if_pos h0]
    rfl
  · rw [remove_from_map, index_of, if_pos h0]
  · have he : hash_function n k = ((hashN n k : Nat) : Int) := hash_good hsum
    constructor
    · rw [he]; positivity
    · rw [he]; exact_mod_cast hashN_lt hn k
  · intro i h1 h2
    exact next_index_bounds hn h1 h2

/-- Witness for C10: the uninitialised table, the key "a", capacity 2. -/
theorem c10_preconditions_witness :
    search_map initMap [97] = none ∧ remove_from_map initMap [97] = none ∧
    (0 ≤ hash_function 2 [97] ∧ hash_function 2 [97] < (2 : Int)) ∧
    (∀ i : Int, 0 ≤ i → i < (2 : Int) →
      0 ≤ next_index 2 i ∧ next_index 2 i < (2 : Int)) :=
  c10_preconditions initMap [97] 2 (by decide) (by decide) (by decide)

end CWK2Q3
